import Mathlib

/-!
Verification of the commit-and-diff attribution engine of the `timelapse`
repository: a shallow embedding of `lib/data_loaders.py` (history loading),
`lib/symbol_extractor.py` (diff hunk parsing, hunk-to-symbol mapping, the
hunk-header fallback), `lib/metrics.py` (coupling, rework ratio,
nearest-prompt lag) and `analyze_symbols.py` (per-commit symbol rows).

Modelling conventions:
- Python `str` values are modelled as `String` / `List Char`; the Python
  string predicates used by the code (`str.isdigit`, `str.strip`,
  `str.split`, `str.splitlines`, `re` patterns) are embedded over ASCII
  characters (the inputs are git plumbing output; exotic Unicode digit and
  line-boundary classes are not exercised by it).
- `datetime` timestamps are modelled as rational numbers of seconds (UTC);
  `timedelta` comparisons and the hour conversions in the metrics are exact
  integer-second arithmetic in the source, so ℚ is faithful. ISO-8601
  timestamp parsing (`datetime.fromisoformat`) is an external library call
  and is passed in as an uninterpreted function `parseTs`.
- Python's stable `list.sort` is modelled by a stable insertion sort
  (`sortByLe`); a stable sort's output is unique for a total preorder, so
  this is extensionally the sort the code performs.
- `dict` / `Counter` values are modelled as association lists in insertion
  order, mirroring CPython's insertion-ordered dictionaries.
-/

/-- ASCII whitespace as matched by Python's `str.strip`, `str.split()` and
the `\s` class of the `re` module (on ASCII input). -/
def isWsChar (c : Char) : Bool :=
  c = ' ' || c = '\t' || c = '\n' || c = '\r' || c = Char.ofNat 11 || c = Char.ofNat 12

/-- `not line.strip()`: the line consists only of whitespace. -/
def pyIsBlank (cs : List Char) : Bool := cs.all isWsChar

/-- Python `str.isdigit` on ASCII input: nonempty and all decimal digits. -/
def pyIsDigit (cs : List Char) : Bool := !cs.isEmpty && cs.all Char.isDigit

/-- Value of a decimal digit string, as computed by Python `int`. -/
def digitsToNat (cs : List Char) : Nat :=
  cs.foldl (fun n c => 10 * n + (c.toNat - 48)) 0

/-- Python `s.split(sep)` for a one-character separator: unlimited split,
empty pieces kept. -/
def splitChar (sep : Char) : List Char → List (List Char)
  | [] => [[]]
  | c :: cs =>
    if c = sep then [] :: splitChar sep cs
    else
      match splitChar sep cs with
      | [] => [[c]]
      | t :: ts => (c :: t) :: ts

/-- Python `s.split(sep, maxsplit)` for a one-character separator: at most
`n` splits, scanning left to right, remainder kept whole. -/
def splitCharB (sep : Char) : Nat → List Char → List (List Char)
  | _, [] => [[]]
  | 0, cs => [cs]
  | Nat.succ n, c :: cs =>
    if c = sep then [] :: splitCharB sep n cs
    else
      match splitCharB sep (Nat.succ n) cs with
      | [] => [[c]]
      | t :: ts => (c :: t) :: ts

/-- Python `str.splitlines` (over `\n`, `\r\n` and `\r` boundaries): no
trailing empty line for a trailing terminator, `[]` for the empty string. -/
def splitLinesAcc (acc : List Char) : List Char → List (List Char)
  | [] => if acc.isEmpty then [] else [acc.reverse]
  | '\r' :: '\n' :: cs => acc.reverse :: splitLinesAcc [] cs
  | '\n' :: cs => acc.reverse :: splitLinesAcc [] cs
  | '\r' :: cs => acc.reverse :: splitLinesAcc [] cs
  | c :: cs => splitLinesAcc (c :: acc) cs

/-- The lines of a string, as Python `str.splitlines` produces them. -/
def pyLines (s : String) : List (List Char) := splitLinesAcc [] s.toList

/-- Python `str.split()` with no argument: split on whitespace runs,
dropping empty pieces. -/
def splitWsAux (acc : List Char) : List Char → List (List Char)
  | [] => if acc.isEmpty then [] else [acc.reverse]
  | c :: cs =>
    if isWsChar c then
      if acc.isEmpty then splitWsAux [] cs else acc.reverse :: splitWsAux [] cs
    else splitWsAux (c :: acc) cs

/-- Python `str.strip()` on ASCII input: drop whitespace from both ends. -/
def pyStrip (cs : List Char) : List Char :=
  ((cs.dropWhile isWsChar).reverse.dropWhile isWsChar).reverse

/-- `hasLead pat l`: `l` starts with `pat` (Python `str.startswith`). -/
def hasLead : List Char → List Char → Bool
  | [], _ => true
  | _ :: _, [] => false
  | p :: ps, c :: cs => p = c && hasLead ps cs

/-- Stable insert: place `x` before the first element `y` with `le x y`,
after everything earlier.  Together with `sortByLe` this is a stable sort,
hence extensionally equal to Python's `list.sort`. -/
def insLe {α : Type} (le : α → α → Bool) (x : α) : List α → List α
  | [] => [x]
  | y :: ys => if le x y then x :: y :: ys else y :: insLe le x ys

/-- Stable insertion sort standing in for Python's stable `list.sort`. -/
def sortByLe {α : Type} (le : α → α → Bool) : List α → List α
  | [] => []
  | x :: xs => insLe le x (sortByLe le xs)

theorem perm_insLe {α : Type} (le : α → α → Bool) (x : α) (l : List α) :
    List.Perm (insLe le x l) (x :: l) := by
  induction l with
  | nil => simp [insLe]
  | cons y ys ih =>
    by_cases h : le x y = true
    · simp [insLe, h]
    · simp only [insLe, h, if_false]
      exact (List.Perm.cons y ih).trans (List.Perm.swap x y ys)

theorem perm_sortByLe {α : Type} (le : α → α → Bool) (l : List α) :
    List.Perm (sortByLe le l) l := by
  induction l with
  | nil => simp [sortByLe]
  | cons x xs ih =>
    exact (perm_insLe le x (sortByLe le xs)).trans (List.Perm.cons x ih)

theorem mem_sortByLe {α : Type} (le : α → α → Bool) (x : α) (l : List α) :
    x ∈ sortByLe le l ↔ x ∈ l := (perm_sortByLe le l).mem_iff

theorem length_sortByLe {α : Type} (le : α → α → Bool) (l : List α) :
    (sortByLe le l).length = l.length := (perm_sortByLe le l).length_eq

theorem pairwise_insLe {α : Type} {le : α → α → Bool}
    (htrans : ∀ a b c, le a b = true → le b c = true → le a c = true)
    (htot : ∀ a b, le a b = true ∨ le b a = true)
    (x : α) {l : List α} (hl : l.Pairwise (fun a b => le a b = true)) :
    (insLe le x l).Pairwise (fun a b => le a b = true) := by
  induction l with
  | nil => simp [insLe]
  | cons y ys ih =>
    rcases List.pairwise_cons.mp hl with ⟨hy, hys⟩
    by_cases h : le x y = true
    · simp only [insLe, h, if_true]
      refine List.pairwise_cons.mpr ⟨?_, hl⟩
      intro z hz
      rcases List.mem_cons.mp hz with hz | hz
      · subst hz
        exact h
      · exact htrans x y z h (hy z hz)
    · simp only [insLe, h, if_false]
      refine List.pairwise_cons.mpr ⟨?_, ih hys⟩
      intro z hz
      rcases List.mem_cons.mp ((perm_insLe le x ys).mem_iff.mp hz) with hz | hz
      · rcases htot x y with hxy | hyx
        · exact absurd hxy h
        · rw [hz]
          exact hyx
      · exact hy z hz

theorem pairwise_sortByLe {α : Type} {le : α → α → Bool}
    (htrans : ∀ a b c, le a b = true → le b c = true → le a c = true)
    (htot : ∀ a b, le a b = true ∨ le b a = true) (l : List α) :
    (sortByLe le l).Pairwise (fun a b => le a b = true) := by
  induction l with
  | nil => simp [sortByLe]
  | cons x xs ih => exact pairwise_insLe htrans htot x ih

/-- Length of a filter is monotone in the predicate. -/
theorem length_filter_mono {α : Type} {p q : α → Bool}
    (h : ∀ a, p a = true → q a = true) (l : List α) :
    (l.filter p).length ≤ (l.filter q).length := by
  induction l with
  | nil => simp
  | cons a as ih =>
    by_cases hp : p a = true
    · simp [List.filter, hp, h a hp, Nat.succ_le_succ ih]
    · by_cases hq : q a = true
      · simp only [List.filter, hp, hq]
        exact Nat.le_succ_of_le ih
      · simp [List.filter, hp, hq, ih]

/-!
## Data model (`lib/data_loaders.py`)
-/

/-- The `Commit` dataclass of `lib/data_loaders.py`.  `ts` is the author
timestamp in seconds (UTC); `file_stats` is the per-file
`(insertions, deletions)` dict, as an insertion-ordered association list. -/
structure Commit where
  repo : String
  sha : String
  ts : ℚ
  subject : String
  files : List String
  insertions : Nat
  deletions : Nat
  file_stats : List (String × Nat × Nat)
  binary_numstat : Bool
  merge_commit : Bool
deriving DecidableEq, Repr, Inhabited

/-- The `Prompt` dataclass (the external event stream for lag metrics). -/
structure Prompt where
  repo : String
  ts : ℚ
  source : String
  text : String
deriving DecidableEq, Repr, Inhabited

/-- Association-list lookup for a Python `dict[str, tuple[int, int]]`. -/
def assocFind : List (String × Nat × Nat) → String → Option (Nat × Nat)
  | [], _ => none
  | (k, v) :: rest, key => if k = key then some v else assocFind rest key

/-- `d[key] = (d[key][0] + i, d[key][1] + j)` on an association list:
adds to the value of an existing key in place. -/
def updateAdd : List (String × Nat × Nat) → String → Nat → Nat → List (String × Nat × Nat)
  | [], _, _, _ => []
  | (k, a, b) :: rest, key, i, j =>
    if k = key then (k, a + i, b + j) :: rest else (k, a, b) :: updateAdd rest key i j

/-!
## History loader (`load_commits`, `lib/data_loaders.py` lines 103-160)

The `git log` invocation is the external history query (spec section 6); the
loader is embedded as a function of the raw output text.  `parseTs` stands
for `parse_ts` (ISO-8601 parsing by the `datetime` library, external).
-/

/-- Header recognition of `load_commits`:
`parts = line.split("|", 3); len(parts) == 4 and len(parts[0]) == 40`. -/
def isHeaderLine (line : List Char) : Bool :=
  let parts := splitCharB '|' 3 line
  parts.length = 4 && (parts.headD []).length = 40

/-- The `Commit(...)` constructed from a recognized header line
(`sha, ts_raw, subject, parents_raw = parts`). -/
def mkHeaderCommit (repo : String) (parseTs : String → ℚ) (parts : List (List Char)) : Commit where
  repo := repo
  sha := String.mk (parts.headD [])
  ts := parseTs (String.mk ((parts.drop 1).headD []))
  subject := String.mk ((parts.drop 2).headD [])
  files := []
  insertions := 0
  deletions := 0
  file_stats := []
  binary_numstat := false
  merge_commit := decide (2 ≤ (splitWsAux [] ((parts.drop 3).headD [])).length)

/-- First half of the numstat handling: register an unseen path with a
`(0, 0)` stats entry and append it to `files`
(`lib/data_loaders.py` lines 145-147). -/
def registerPath (c : Commit) (path : String) : Commit :=
  if assocFind c.file_stats path = none then
    { c with file_stats := c.file_stats ++ [(path, 0, 0)], files := c.files ++ [path] }
  else c

/-- Second half of the numstat handling: set the binary flag when a field
was non-numeric, add the parsed counts to the totals and to the path's
stats entry (`lib/data_loaders.py` lines 149-158). -/
def applyNumstat (c : Commit) (path : String) (ins dels : Nat) (flag : Bool) : Commit :=
  let flagged := if flag then { c with binary_numstat := true } else c
  { flagged with
    insertions := flagged.insertions + ins
    deletions := flagged.deletions + dels
    file_stats := updateAdd flagged.file_stats path ins dels }

/-- Processing of one candidate numstat line against the current commit
(`lib/data_loaders.py` lines 140-158). -/
def numstatStep (c : Commit) (line : List Char) : Commit :=
  match splitChar '\t' line with
  | [insRaw, delRaw, pathRaw] =>
    let path := String.mk pathRaw
    let ins := if pyIsDigit insRaw then digitsToNat insRaw else 0
    let dels := if pyIsDigit delRaw then digitsToNat delRaw else 0
    applyNumstat (registerPath c path) path ins dels (!(pyIsDigit insRaw && pyIsDigit delRaw))
  | _ => c

/-- Loader state: completed commits plus the commit currently being filled
(the Python loop appends `current` on creation and then mutates it; here it
is moved into `finished` when the next header arrives or input ends). -/
structure LoadState where
  finished : List Commit
  current : Option Commit
deriving DecidableEq, Repr, Inhabited

/-- One iteration of the `load_commits` line loop. -/
def loadStep (repo : String) (parseTs : String → ℚ) (st : LoadState) (line : List Char) :
    LoadState :=
  if isHeaderLine line then
    { finished := st.finished ++ st.current.toList
      current := some (mkHeaderCommit repo parseTs (splitCharB '|' 3 line)) }
  else
    match st.current with
    | none => st
    | some c => if pyIsBlank line then st else { st with current := some (numstatStep c line) }

/-- `load_commits` as a function of the raw `git log` output text. -/
def load_commits (repo : String) (parseTs : String → ℚ) (output : String) : List Commit :=
  let st := (pyLines output).foldl (loadStep repo parseTs) ⟨[], none⟩
  st.finished ++ st.current.toList

/-- Sum of the per-file insertion counts of a commit's `file_stats`. -/
def insSum (c : Commit) : Nat := (c.file_stats.map (fun e => e.2.1)).sum

/-- Sum of the per-file deletion counts of a commit's `file_stats`. -/
def delSum (c : Commit) : Nat := (c.file_stats.map (fun e => e.2.2)).sum

/-!
## Diff hunk parser (`lib/symbol_extractor.py` lines 62-112)
-/

/-- The `DiffHunk` dataclass. -/
structure DiffHunk where
  old_start : Nat
  old_count : Nat
  new_start : Nat
  new_count : Nat
  header : String
  added_lines : List Nat
  deleted_lines : List Nat
deriving DecidableEq, Repr, Inhabited

/-- `(?:,(\d+))?` of `_HUNK_RE`: an optional comma-and-count.  When a comma
is present without digits the group matches empty and the comma is left in
the remainder (where the following mandatory whitespace then fails), exactly
as the regex backtracks. -/
def parseOptCount (cs : List Char) : Option Nat × List Char :=
  match cs with
  | ',' :: rest =>
    let ds := rest.takeWhile Char.isDigit
    if ds.isEmpty then (none, cs) else (some (digitsToNat ds), rest.dropWhile Char.isDigit)
  | _ => (none, cs)

/-- `\s+` of `_HUNK_RE`: require at least one whitespace character. -/
def reqWs (cs : List Char) : Option (List Char) :=
  if (cs.takeWhile isWsChar).isEmpty then none else some (cs.dropWhile isWsChar)

/-- `<marker>(\d+)(?:,(\d+))?` of `_HUNK_RE`; a missing count defaults to 1
(`int(m.group(n) or "1")`). -/
def matchNumPair (marker : Char) (cs : List Char) : Option (Nat × Nat × List Char) :=
  match cs with
  | [] => none
  | c :: r1 =>
    if c = marker then
      let ds := r1.takeWhile Char.isDigit
      if ds.isEmpty then none
      else
        match parseOptCount (r1.dropWhile Char.isDigit) with
        | (some k, r3) => some (digitsToNat ds, k, r3)
        | (none, r3) => some (digitsToNat ds, 1, r3)
    else none

/-- `_HUNK_RE.match(line)`:
`^@@\s+-(\d+)(?:,(\d+))?\s+\+(\d+)(?:,(\d+))?\s+@@\s*(.*)$`, returning
`(old_start, old_count, new_start, new_count, group(5).strip())`.  Every
`\s+`/`\d+` run is followed by a character outside its class, so maximal
munch coincides with the regex's backtracking search. -/
def matchHunkHeader (cs : List Char) : Option (Nat × Nat × Nat × Nat × List Char) :=
  match cs with
  | '@' :: '@' :: r0 =>
    match reqWs r0 with
    | none => none
    | some r1 =>
      match matchNumPair '-' r1 with
      | none => none
      | some (os, oc, r2) =>
        match reqWs r2 with
        | none => none
        | some r3 =>
          match matchNumPair '+' r3 with
          | none => none
          | some (nstart, ncount, r4) =>
            match reqWs r4 with
            | none => none
            | some r5 =>
              match r5 with
              | '@' :: '@' :: r6 => some (os, oc, nstart, ncount, pyStrip r6)
              | _ => none
  | _ => none

/-- State of the `parse_diff_hunks` line loop. -/
structure DiffState where
  hunks : List DiffHunk
  current : Option DiffHunk
  old_line : Nat
  new_line : Nat
deriving DecidableEq, Repr, Inhabited

/-- One iteration of the `parse_diff_hunks` loop
(`lib/symbol_extractor.py` lines 71-108). -/
def diffStep (st : DiffState) (line : List Char) : DiffState :=
  match matchHunkHeader line with
  | some (os, oc, nstart, ncount, hdr) =>
    { hunks := st.hunks ++ st.current.toList
      current := some ⟨os, oc, nstart, ncount, String.mk hdr, [], []⟩
      old_line := os
      new_line := nstart }
  | none =>
    match st.current with
    | none => st
    | some cur =>
      if hasLead "+++".toList line || hasLead "---".toList line then st
      else if hasLead "+".toList line then
        { st with
          current := some { cur with added_lines := cur.added_lines ++ [st.new_line] }
          new_line := st.new_line + 1 }
      else if hasLead "-".toList line then
        { st with
          current := some { cur with deleted_lines := cur.deleted_lines ++ [st.old_line] }
          old_line := st.old_line + 1 }
      else { st with old_line := st.old_line + 1, new_line := st.new_line + 1 }

/-- The hunk list produced from a list of diff lines. -/
def parseDiffLines (lines : List (List Char)) : List DiffHunk :=
  let st := lines.foldl diffStep ⟨[], none, 0, 0⟩
  st.hunks ++ st.current.toList

/-- `parse_diff_hunks` on the raw diff text. -/
def parse_diff_hunks (diff_text : String) : List DiffHunk :=
  parseDiffLines (pyLines diff_text)

/-!
## Hunk-to-symbol mapping and header fallback
(`lib/symbol_extractor.py` lines 115-142)
-/

/-- `Counter[key] += n` on an insertion-ordered association list. -/
def counterAdd : List (String × Nat) → String → Nat → List (String × Nat)
  | [], key, n => [(key, n)]
  | (k, v) :: rest, key, n =>
    if k = key then (k, v + n) :: rest else (k, v) :: counterAdd rest key n

/-- `any(start <= ln <= end for ln in changed)` where `changed` is the union
of the hunk's added and deleted line numbers. -/
def hunkOverlaps (h : DiffHunk) (s e : Nat) : Bool :=
  (h.added_lines ++ h.deleted_lines).any (fun ln => decide (s ≤ ln) && decide (ln ≤ e))

/-- `map_hunks_to_symbols`: one touch per symbol per hunk whose changed
lines intersect the symbol's span; empty table gives an empty counter. -/
def map_hunks_to_symbols (hunks : List DiffHunk) (symbols : List (String × Nat × Nat)) :
    List (String × Nat) :=
  if symbols.isEmpty then []
  else
    hunks.foldl
      (fun acc h =>
        symbols.foldl
          (fun acc2 entry =>
            if hunkOverlaps h entry.2.1 entry.2.2 then counterAdd acc2 entry.1 1 else acc2)
          acc)
      []

/-- Try the literal keyword `kw` at the head of `cs`. -/
def matchKw (kw : List Char) (cs : List Char) : Option (List Char) :=
  if hasLead kw cs then some (cs.drop kw.length) else none

/-- `[A-Za-z_][A-Za-z0-9_]*` at the head of `cs`. -/
def matchIdentAt (cs : List Char) : Option (List Char) :=
  match cs with
  | [] => none
  | c :: rest =>
    if c.isAlpha || c = '_' then
      some (c :: rest.takeWhile (fun d => d.isAlphanum || d = '_'))
    else none

/-- One anchored attempt of `(?:def|class|function)\s+([A-Za-z_][A-Za-z0-9_]*)`.
The three keywords start with distinct characters, so at most one
alternative can match at a given position and no backtracking arises. -/
def declNameAt (cs : List Char) : Option (List Char) :=
  match (matchKw "def".toList cs).orElse
      (fun _ => (matchKw "class".toList cs).orElse (fun _ => matchKw "function".toList cs)) with
  | none => none
  | some rest =>
    match reqWs rest with
    | none => none
    | some r2 => matchIdentAt r2

/-- `re.search` of the declaration pattern: leftmost match. -/
def searchDeclName : List Char → Option (List Char)
  | [] => none
  | c :: rest =>
    match declNameAt (c :: rest) with
    | some nm => some nm
    | none => searchDeclName rest

/-- `symbols_from_hunk_headers`: the context-header fallback attribution. -/
def symbols_from_hunk_headers (hunks : List DiffHunk) : List (String × Nat) :=
  hunks.foldl
    (fun acc h =>
      if h.header.isEmpty then acc
      else
        match searchDeclName h.header.toList with
        | some nm => counterAdd acc (String.mk nm) 1
        | none => counterAdd acc (String.mk (h.header.toList.take 80)) 1)
    []

/-!
## Per-commit symbol rows (`analyze_symbols.py` lines 31-85)

The two `run_git` calls (`_diff_for_commit_file`, `_load_file_at_commit`)
and the `ast`-based `extract_symbols` are the external inputs of
`_symbol_rows_for_commit`; the function is embedded over the diff text and
the extracted symbol table.
-/

/-- One row of `_symbol_rows_for_commit` (the symbol touch record; the
ISO-8601 rendering of `ts` by `utc_iso` is presentation only and the
timestamp is kept numeric). -/
structure SymbolRow where
  repo : String
  sha : String
  ts : ℚ
  file : String
  symbol_id : String
  touches : Nat
  added : Nat
  deleted : Nat
  churn : Nat
  extractor : String
  flags : List String
deriving DecidableEq, Repr, Inhabited

/-- `_symbol_rows_for_commit`, returning `(rows, quality_flags)`. -/
def symbolRowsForCommit (commit : Commit) (file_path : String) (diff_text : String)
    (symbols : List (String × Nat × Nat)) : List SymbolRow × List String :=
  if commit.merge_commit then ([], ["merge_skipped"])
  else
    let hunks := parse_diff_hunks diff_text
    if hunks.isEmpty then ([], [])
    else
      let astBranch := !symbols.isEmpty
      let touched0 :=
        if astBranch then map_hunks_to_symbols hunks symbols
        else symbols_from_hunk_headers hunks
      let extr := if astBranch then "ast" else "hunk_header"
      let flags0 : List String := if astBranch then [] else ["symbol_fallback_header"]
      let unresolved := touched0.isEmpty
      let touched := if unresolved then [("unknown", hunks.length)] else touched0
      let flags := if unresolved then flags0 ++ ["symbol_unresolved"] else flags0
      let rows := touched.map fun entry =>
        let relevant := hunks.filter fun h =>
          match (if astBranch then assocFind symbols entry.1 else none) with
          | some se => hunkOverlaps h se.1 se.2
          | none => true
        let added := (relevant.map (fun h => h.added_lines.length)).sum
        let deleted := (relevant.map (fun h => h.deleted_lines.length)).sum
        { repo := commit.repo
          sha := commit.sha
          ts := commit.ts
          file := file_path
          symbol_id := entry.1
          touches := entry.2
          added := added
          deleted := deleted
          churn := added + deleted
          extractor := extr
          flags := flags : SymbolRow }
      (rows, flags)

/-!
## Metrics (`lib/metrics.py`)
-/

/-- Ordering key of the per-repo prompt sort (`key=lambda p: p.ts`). -/
def promptLe (a b : Prompt) : Bool := decide (a.ts ≤ b.ts)

/-- The per-repo prompt list of `nearest_prompt_lags_hours`: the prompts of
the repo in input order (`defaultdict` grouping), sorted stably by `ts`. -/
def repoPrompts (prompts : List Prompt) (repo : String) : List Prompt :=
  sortByLe promptLe (prompts.filter (fun p => decide (p.repo = repo)))

/-- The scan `for prompt in repo_prompts: if prompt.ts > commit.ts: break;
nearest = prompt`: the last element of the longest all-`≤ t` head run. -/
def lastLe (t : ℚ) : List Prompt → Option Prompt
  | [] => none
  | p :: ps => if t < p.ts then none else some ((lastLe t ps).getD p)

/-- `nearest_prompt_lags_hours` (`lib/metrics.py` lines 10-30). -/
def nearest_prompt_lags_hours (commits : List Commit) (prompts : List Prompt) : List ℚ :=
  commits.filterMap fun c =>
    match lastLe c.ts (repoPrompts prompts c.repo) with
    | none => none
    | some p =>
      let lag := (c.ts - p.ts) / 3600
      if 0 ≤ lag ∧ lag ≤ 12 then some lag else none

/-- Fold step computing the largest element `≤ t` seen so far. -/
def latestStep (t : ℚ) (x : ℚ) (m : Option ℚ) : Option ℚ :=
  if x ≤ t then
    some (match m with
      | none => x
      | some y => max x y)
  else m

/-- The largest element of `l` that is `≤ t`, if any. -/
def latestTsLe (t : ℚ) (l : List ℚ) : Option ℚ := l.foldr (latestStep t) none

/-- Modelled from the spec's words (refinement reference for C3): pair the
commit with the latest same-repository event whose timestamp is at most the
commit's, lag in hours, kept only within [0, 12]; no preceding event gives
no sample. -/
def nearestLagSpec (prompts : List Prompt) (c : Commit) : Option ℚ :=
  match latestTsLe c.ts ((prompts.filter (fun p => decide (p.repo = c.repo))).map Prompt.ts) with
  | none => none
  | some m =>
    let lag := (c.ts - m) / 3600
    if 0 ≤ lag ∧ lag ≤ 12 then some lag else none

/-- Ordering key of the rework timestamp sort. -/
def ratLe (a b : ℚ) : Bool := decide (a ≤ b)

/-- The timestamps appended for file `f` by the `rework_ratio` grouping
loop, in commit order (one per occurrence of `f` in `commit.files`). -/
def touchTimes (commits : List Commit) (f : String) : List ℚ :=
  commits.flatMap fun c => (c.files.filter (fun g => decide (g = f))).map (fun _ => c.ts)

/-- `any((b - a) <= window for a, b in zip(ts, ts[1:]))`. -/
def retouchedB (window : ℚ) (ts : List ℚ) : Bool :=
  (ts.zip ts.tail).any (fun ab => decide (ab.2 - ab.1 ≤ window))

/-- The keys of the `commit_dates` grouping: every file path touched by any
commit (the ratio only depends on the key set, so a deduplicated
enumeration is used). -/
def fileKeys (commits : List Commit) : List String := (commits.flatMap Commit.files).dedup

/-- `rework_ratio` (`lib/metrics.py` lines 33-51); `window_days` days as a
`timedelta` is `86400 * window_days` seconds. -/
def reworkRatioOf (commits : List Commit) (window_days : Nat) : ℚ :=
  let keys := fileKeys commits
  let touched := keys.length
  let retouched :=
    (keys.filter fun f =>
      retouchedB ((86400 : ℚ) * window_days) (sortByLe ratLe (touchTimes commits f))).length
  if touched = 0 then 0 else (retouched : ℚ) / (touched : ℚ)

/-!
## Co-change coupling (`lib/metrics.py` lines 54-102)
-/

/-- Code-point lexicographic `<` on character lists (Python's string
comparison; stated explicitly because Lean's `String` order instances do
not reduce inside the kernel). -/
def charListLt : List Char → List Char → Bool
  | [], [] => false
  | [], _ :: _ => true
  | _ :: _, [] => false
  | a :: as, b :: bs => a.toNat < b.toNat || (a.toNat = b.toNat && charListLt as bs)

/-- Ordering of the `sorted(set(files))` call: `a ≤ b` as `¬ b < a`. -/
def strLe (a b : String) : Bool := !charListLt b.toList a.toList

/-- `sorted(set(commit.files))`: the distinct files, sorted ascending. -/
def sortedUnique (files : List String) : List String := sortByLe strLe files.dedup

/-- The unordered pairs `(left, right)` taken from a sorted unique file
list, `left` before `right`, in the nested-loop order of
`co_change_matrix`. -/
def listPairs : List String → List (String × String)
  | [] => []
  | x :: xs => xs.map (fun y => (x, y)) ++ listPairs xs

/-- A commit contributes to the co-change count of pair `pr`:
`2 <= len(unique_files) <= max_changeset_size` and the pair occurs among
its file pairs. -/
def pairInCo (c : Commit) (cap : Nat) (pr : String × String) : Bool :=
  let u := sortedUnique c.files
  decide (2 ≤ u.length) && decide (u.length ≤ cap) && decide (pr ∈ listPairs u)

/-- The co-change `Counter` value at key `pr`: each qualifying commit
increments the pair exactly once (its unique pair list has no duplicates),
so the count is the number of qualifying commits. -/
def pairCount (commits : List Commit) (cap : Nat) (pr : String × String) : Nat :=
  (commits.filter (fun c => pairInCo c cap pr)).length

/-- The keys of the co-change `Counter` (each pair that some qualifying
commit produced; deduplicated key enumeration). -/
def matrixKeys (commits : List Commit) (cap : Nat) : List (String × String) :=
  (commits.flatMap fun c =>
    let u := sortedUnique c.files
    if 2 ≤ u.length ∧ u.length ≤ cap then listPairs u else []).dedup

/-- `commit_count_for_file[f]`: commits whose unique-file count is within
the cap and that touch `f`. -/
def commitCountForFile (commits : List Commit) (cap : Nat) (f : String) : Nat :=
  (commits.filter (fun c => decide (c.files.dedup.length ≤ cap) && decide (f ∈ c.files))).length

/-- One output row of `coupling_scores`.  The `round(score, 4)` display
rounding of the `coupling` field is float presentation and is kept exact
here; the claim checked concerns `shared_commits` and
`target_commit_touches`. -/
structure CouplingRow where
  file : String
  other_file : String
  shared_commits : Nat
  target_commit_touches : Nat
  coupling : ℚ
deriving DecidableEq, Repr, Inhabited

/-- Descending `(shared_commits, coupling)` order of the final row sort. -/
def rowGe (a b : CouplingRow) : Bool :=
  decide (b.shared_commits < a.shared_commits) ||
    (decide (a.shared_commits = b.shared_commits) && decide (b.coupling ≤ a.coupling))

/-- `coupling_scores` (`lib/metrics.py` lines 66-102). -/
def coupling_scores (commits : List Commit) (target_file : String)
    (min_shared_revs max_changeset_size : Nat) : List CouplingRow :=
  let rows := (matrixKeys commits max_changeset_size).filterMap fun pr =>
    let shared := pairCount commits max_changeset_size pr
    if shared < min_shared_revs then none
    else if ¬(target_file = pr.1 ∨ target_file = pr.2) then none
    else
      let other := if pr.1 = target_file then pr.2 else pr.1
      let n := commitCountForFile commits max_changeset_size target_file
      let base := if n = 0 then 1 else n
      some ⟨target_file, other, shared, base, (shared : ℚ) / (base : ℚ)⟩
  sortByLe rowGe rows

/-!
## Exception model for `extract_symbols` (`lib/symbol_extractor.py`
lines 52-59)

`extract_symbols` wraps `ast.parse(source)` in `try ... except SyntaxError:
return {}`.  The parser is the external CPython library; on this runtime
(checked on CPython 3.11) `ast.parse` on a string signals every parse
failure — unparseable source, unsupported syntax, and binary content such
as NUL-containing text ("source code string cannot contain null bytes") —
as a `SyntaxError`, which the except clause catches.
-/

/-- Number of hunks held by a parser state (emitted plus in progress). -/
def hunkTally (st : DiffState) : Nat := st.hunks.length + st.current.toList.length

theorem hunkTally_diffStep (st : DiffState) (line : List Char) :
    hunkTally (diffStep st line) =
      hunkTally st + (if (matchHunkHeader line).isSome then 1 else 0) := by
  unfold diffStep
  cases hm : matchHunkHeader line with
  | some v =>
    obtain ⟨os, oc, nstart, ncount, hdr⟩ := v
    simp [hunkTally, hm]
  | none =>
    cases hc : st.current with
    | none => simp [hunkTally, hm, hc]
    | some cur =>
      split_ifs <;> simp_all [hunkTally]

theorem hunkTally_foldl (lines : List (List Char)) (st : DiffState) :
    hunkTally (lines.foldl diffStep st) =
      hunkTally st + (lines.filter (fun l => (matchHunkHeader l).isSome)).length := by
  induction lines generalizing st with
  | nil => simp
  | cons l ls ih =>
    rw [List.foldl_cons, ih, hunkTally_diffStep]
    by_cases h : (matchHunkHeader l).isSome = true
    · simp [List.filter, h]
      omega
    · simp [List.filter, h]

theorem diffStep_no_current (st : DiffState) (line : List Char)
    (hcur : st.current = none) (hm : matchHunkHeader line = none) :
    diffStep st line = st := by
  unfold diffStep
  rw [hm, hcur]

/-- Claim C7 (amended): `parse_diff_hunks` emits exactly one `DiffHunk`
per line matching the hunk-header pattern, regardless of whether the hunk
has any added or deleted lines — a hunk with zero added and zero deleted
lines is retained, not dropped. -/
theorem parse_diff_hunks_one_per_header (diff_text : String) :
    (parse_diff_hunks diff_text).length =
      ((pyLines diff_text).filter (fun l => (matchHunkHeader l).isSome)).length := by
  have h := hunkTally_foldl (pyLines diff_text) ⟨[], none, 0, 0⟩
  simpa [parse_diff_hunks, parseDiffLines, hunkTally] using h

/-- Claim C7 counterexample: on the diff text `"@@ -1 +1 @@"` the parser
returns a hunk with zero added and zero deleted lines, refuting the claim
that such hunks never appear in the output. -/
theorem empty_hunk_not_dropped :
    ¬ (∀ h ∈ parse_diff_hunks "@@ -1 +1 @@", h.added_lines ≠ [] ∨ h.deleted_lines ≠ []) := by
  decide

/-- Claim C10: lines before the first hunk header are ignored — a prefix
with no header line leaves the parse unchanged, and a text none of whose
lines match the hunk-header pattern parses to the empty hunk list. -/
theorem preamble_ignored :
    (∀ pre rest : List (List Char), (∀ l ∈ pre, matchHunkHeader l = none) →
      parseDiffLines (pre ++ rest) = parseDiffLines rest) ∧
    (∀ diff_text : String, (∀ l ∈ pyLines diff_text, matchHunkHeader l = none) →
      parse_diff_hunks diff_text = []) := by
  have hfold : ∀ (pre : List (List Char)), (∀ l ∈ pre, matchHunkHeader l = none) →
      pre.foldl diffStep ⟨[], none, 0, 0⟩ = ⟨[], none, 0, 0⟩ := by
    intro pre
    induction pre with
    | nil => intro _; rfl
    | cons l ls ih =>
      intro hall
      rw [List.foldl_cons, diffStep_no_current _ _ rfl (hall l (List.mem_cons_self l ls))]
      exact ih fun x hx => hall x (List.mem_cons_of_mem l hx)
  constructor
  · intro pre rest hall
    unfold parseDiffLines
    rw [List.foldl_append, hfold pre hall]
  · intro diff_text hall
    unfold parse_diff_hunks parseDiffLines
    rw [hfold _ hall]
    rfl

/-- A sample diff preamble: `git show` header lines and arbitrary text,
none of which match the hunk-header pattern. -/
def diffPreambleSample : String := "diff --git a/x b/x\nindex 000..111 100644\nhello"

/-- Witness for claim C10 at a concrete preamble-only text. -/
theorem preamble_ignored_witness :
    (∀ l ∈ pyLines diffPreambleSample, matchHunkHeader l = none) ∧
    parse_diff_hunks diffPreambleSample = [] := by
  refine ⟨by decide, preamble_ignored.2 diffPreambleSample (by decide)⟩

/-- If a line does not start with `c` it does not start with `c :: p`. -/
theorem hasLead_cons_false {c : Char} {p line : List Char}
    (h : hasLead [c] line = false) : hasLead (c :: p) line = false := by
  cases line with
  | nil => rfl
  | cons c0 rest =>
    simp only [hasLead, Bool.and_true] at h
    simp only [hasLead, h, Bool.false_and]

/-- Claim C9 (amended): inside a hunk, a non-header line whose leading
character is neither `+` nor `-` advances both line cursors by one and
records nothing; but a line starting with `+++` or `---` is skipped
entirely — neither cursor advances and nothing is recorded. -/
theorem context_line_cursors (st : DiffState) (cur : DiffHunk) (line : List Char)
    (hm : matchHunkHeader line = none) (hc : st.current = some cur) :
    ((hasLead "+++".toList line = true ∨ hasLead "---".toList line = true) →
      diffStep st line = st) ∧
    (hasLead "+".toList line = false → hasLead "-".toList line = false →
      diffStep st line =
        { st with old_line := st.old_line + 1, new_line := st.new_line + 1 }) := by
  constructor
  · intro h1
    have hb : (hasLead "+++".toList line || hasLead "---".toList line) = true := by
      rcases h1 with h | h
      · simp only [h, Bool.true_or]
      · simp only [h, Bool.or_true]
    unfold diffStep
    rw [hm, hc]
    simp only [hb]
    simp
  · intro h2 h3
    have ha : hasLead "+++".toList line = false := hasLead_cons_false h2
    have hb : hasLead "---".toList line = false := hasLead_cons_false h3
    have hcond : (hasLead "+++".toList line || hasLead "---".toList line) = false := by
      rw [ha, hb]
      rfl
    unfold diffStep
    rw [hm, hc]
    simp only [hcond, Bool.false_eq_true, if_false, h2, h3]

/-- Concrete parser state inside a hunk, for the C9 theorems. -/
def diffStateSample : DiffState := ⟨[], some ⟨1, 2, 1, 2, "", [], []⟩, 1, 1⟩

/-- Witness for claim C9 (amended) at a concrete state and lines. -/
theorem context_line_cursors_witness :
    diffStep diffStateSample " ctx".toList =
      { diffStateSample with
        old_line := diffStateSample.old_line + 1
        new_line := diffStateSample.new_line + 1 } ∧
    diffStep diffStateSample "---x".toList = diffStateSample := by
  constructor
  · exact (context_line_cursors diffStateSample ⟨1, 2, 1, 2, "", [], []⟩ " ctx".toList
      (by decide) rfl).2 (by decide) (by decide)
  · exact (context_line_cursors diffStateSample ⟨1, 2, 1, 2, "", [], []⟩ "---x".toList
      (by decide) rfl).1 (Or.inr (by decide))

/-- Claim C9 counterexample: on the non-header line `"---x"` inside a hunk
the parser advances neither cursor (the claim says both advance by one). -/
theorem marker_line_does_not_advance :
    matchHunkHeader "---x".toList = none ∧
    diffStateSample.current.isSome = true ∧
    diffStep diffStateSample "---x".toList = diffStateSample ∧
    ¬((diffStep diffStateSample "---x".toList).old_line = diffStateSample.old_line + 1 ∧
      (diffStep diffStateSample "---x".toList).new_line = diffStateSample.new_line + 1) := by
  decide

/-- Claim C8 (amended): `load_commits` recognizes a line as a commit header
exactly when `line.split("|", 3)` yields four fields (that is, the line has
at least three pipes — extra pipes are absorbed into the fourth field) and
the first field is exactly 40 characters long; the characters are not
required to be hexadecimal.  Any non-header line while a commit is current
and the line is non-blank is treated as a candidate file-change line. -/
theorem header_recognition (repo : String) (parseTs : String → ℚ) (st : LoadState)
    (line : List Char) :
    (isHeaderLine line = true ↔
      (splitCharB '|' 3 line).length = 4 ∧ ((splitCharB '|' 3 line).headD []).length = 40) ∧
    (isHeaderLine line = true →
      loadStep repo parseTs st line =
        ⟨st.finished ++ st.current.toList,
          some (mkHeaderCommit repo parseTs (splitCharB '|' 3 line))⟩) ∧
    (isHeaderLine line = false → st.current = none → loadStep repo parseTs st line = st) ∧
    (isHeaderLine line = false → ∀ c, st.current = some c → pyIsBlank line = false →
      loadStep repo parseTs st line = ⟨st.finished, some (numstatStep c line)⟩) := by
  refine ⟨?_, ?_, ?_, ?_⟩
  · simp [isHeaderLine]
  · intro h
    unfold loadStep
    rw [if_pos h]
  · intro h hcur
    unfold loadStep
    rw [if_neg (by simp [h]), hcur]
  · intro h c hcur hblank
    unfold loadStep
    rw [if_neg (by simp [h]), hcur]
    simp [hblank]

/-- A header line of the sample history (40-character identifier). -/
def sampleHeaderChars : List Char := "aaaaaaaaaaaaaaaaaaaaaaaaaaaaaaaaaaaaaaaa|t|fix|p".toList

/-- Witness for claim C8 (amended) at concrete lines and states. -/
theorem header_recognition_witness :
    isHeaderLine sampleHeaderChars = true ∧
    loadStep "r" (fun _ => (0 : ℚ)) ⟨[], none⟩ sampleHeaderChars =
      ⟨[], some (mkHeaderCommit "r" (fun _ => (0 : ℚ)) (splitCharB '|' 3 sampleHeaderChars))⟩ ∧
    isHeaderLine "1\t2\ta.py".toList = false := by
  refine ⟨by decide, ?_, by decide⟩
  have h := (header_recognition "r" (fun _ => (0 : ℚ)) ⟨[], none⟩ sampleHeaderChars).2.1
    (by decide)
  simpa using h

/-- A 40-character non-hexadecimal first field followed by three pipes. -/
def zHeaderLine : List Char := "zzzzzzzzzzzzzzzzzzzzzzzzzzzzzzzzzzzzzzzz|a|b|c".toList

/-- A 40-character hexadecimal first field followed by four pipes (five
plain pipe-delimited fields). -/
def fivePipeLine : List Char := "0000000000000000000000000000000000000000|a|b|c|d".toList

/-- Hexadecimal digit test (for stating the C8 counterexample). -/
def hexDigitB (c : Char) : Bool :=
  c.isDigit || ('a' ≤ c && c ≤ 'f') || ('A' ≤ c && c ≤ 'F')

/-- Claim C8 counterexample: a line whose first pipe field is 40
non-hexadecimal characters starts a new commit, and so does a line with
five plain pipe-delimited fields — refuting "exactly four pipe-delimited
fields and the first field is a 40-character hexadecimal identifier". -/
theorem non_hex_header_recognized :
    (loadStep "r" (fun _ => (0 : ℚ)) ⟨[], none⟩ zHeaderLine).current.isSome = true ∧
    ((splitChar '|' zHeaderLine).headD []).all hexDigitB = false ∧
    (loadStep "r" (fun _ => (0 : ℚ)) ⟨[], none⟩ fivePipeLine).current.isSome = true ∧
    (splitChar '|' fivePipeLine).length = 5 := by
  decide

/-!
## Supporting lemmas for the loader claims
-/

theorem assocFind_updateAdd (l : List (String × Nat × Nat)) (key : String) (i j : Nat) :
    assocFind (updateAdd l key i j) key =
      (assocFind l key).map (fun v => (v.1 + i, v.2 + j)) := by
  induction l with
  | nil => simp [assocFind, updateAdd]
  | cons e rest ih =>
    obtain ⟨k, a, b⟩ := e
    by_cases h : k = key
    · simp [assocFind, updateAdd, h]
    · simp [assocFind, updateAdd, h, ih]

theorem assocFind_append_of_none (l : List (String × Nat × Nat)) (key : String)
    (v : Nat × Nat) (h : assocFind l key = none) :
    assocFind (l ++ [(key, v.1, v.2)]) key = some v := by
  induction l with
  | nil => simp [assocFind]
  | cons e rest ih =>
    obtain ⟨k, a, b⟩ := e
    by_cases hk : k = key
    · simp [assocFind, hk] at h
    · simp only [assocFind, hk, if_false, List.cons_append] at h ⊢
      exact ih h

theorem updateAdd_sum_fst (l : List (String × Nat × Nat)) (key : String) (i j : Nat)
    (h : assocFind l key ≠ none) :
    ((updateAdd l key i j).map (fun e => e.2.1)).sum = (l.map (fun e => e.2.1)).sum + i := by
  induction l with
  | nil => simp [assocFind] at h
  | cons e rest ih =>
    obtain ⟨k, a, b⟩ := e
    by_cases hk : k = key
    · simp only [updateAdd]
      rw [if_pos hk]
      simp only [List.map_cons, List.sum_cons]
      omega
    · simp only [assocFind] at h
      rw [if_neg hk] at h
      simp only [updateAdd]
      rw [if_neg hk]
      simp only [List.map_cons, List.sum_cons, ih h]
      omega

theorem updateAdd_sum_snd (l : List (String × Nat × Nat)) (key : String) (i j : Nat)
    (h : assocFind l key ≠ none) :
    ((updateAdd l key i j).map (fun e => e.2.2)).sum = (l.map (fun e => e.2.2)).sum + j := by
  induction l with
  | nil => simp [assocFind] at h
  | cons e rest ih =>
    obtain ⟨k, a, b⟩ := e
    by_cases hk : k = key
    · simp only [updateAdd]
      rw [if_pos hk]
      simp only [List.map_cons, List.sum_cons]
      omega
    · simp only [assocFind] at h
      rw [if_neg hk] at h
      simp only [updateAdd]
      rw [if_neg hk]
      simp only [List.map_cons, List.sum_cons, ih h]
      omega

theorem registerPath_totals (c : Commit) (path : String) :
    (registerPath c path).insertions = c.insertions ∧
    (registerPath c path).deletions = c.deletions ∧
    (registerPath c path).binary_numstat = c.binary_numstat := by
  unfold registerPath
  split <;> exact ⟨rfl, rfl, rfl⟩

theorem registerPath_sums (c : Commit) (path : String) :
    insSum (registerPath c path) = insSum c ∧ delSum (registerPath c path) = delSum c := by
  unfold registerPath
  split
  · simp [insSum, delSum]
  · exact ⟨rfl, rfl⟩

theorem registerPath_find (c : Commit) (path : String) :
    assocFind (registerPath c path).file_stats path =
      some ((assocFind c.file_stats path).getD (0, 0)) := by
  unfold registerPath
  split
  case isTrue h =>
    simp only [h, Option.getD_none]
    exact assocFind_append_of_none c.file_stats path (0, 0) h
  case isFalse h =>
    cases hv : assocFind c.file_stats path with
    | none => exact absurd hv h
    | some v => simp [hv]

theorem registerPath_mem_files (c : Commit) (path : String)
    (h : assocFind c.file_stats path ≠ none → path ∈ c.files) :
    path ∈ (registerPath c path).files := by
  unfold registerPath
  split
  case isTrue hf => simp
  case isFalse hf => exact h hf

theorem applyNumstat_totals (c : Commit) (path : String) (ins dels : Nat) (flag : Bool) :
    (applyNumstat c path ins dels flag).insertions = c.insertions + ins ∧
    (applyNumstat c path ins dels flag).deletions = c.deletions + dels ∧
    (applyNumstat c path ins dels flag).files = c.files ∧
    (applyNumstat c path ins dels flag).file_stats = updateAdd c.file_stats path ins dels := by
  unfold applyNumstat
  cases flag <;> exact ⟨rfl, rfl, rfl, rfl⟩

theorem applyNumstat_sums (c : Commit) (path : String) (ins dels : Nat) (flag : Bool)
    (h : assocFind c.file_stats path ≠ none) :
    insSum (applyNumstat c path ins dels flag) = insSum c + ins ∧
    delSum (applyNumstat c path ins dels flag) = delSum c + dels := by
  unfold applyNumstat
  cases flag <;>
    exact ⟨updateAdd_sum_fst c.file_stats path ins dels h,
      updateAdd_sum_snd c.file_stats path ins dels h⟩

theorem applyNumstat_flag (c : Commit) (path : String) (ins dels : Nat) :
    (applyNumstat c path ins dels true).binary_numstat = true := rfl

theorem applyNumstat_find (c : Commit) (path : String) (ins dels : Nat) (flag : Bool) :
    assocFind (applyNumstat c path ins dels flag).file_stats path =
      (assocFind c.file_stats path).map (fun v => (v.1 + ins, v.2 + dels)) := by
  unfold applyNumstat
  cases flag <;> exact assocFind_updateAdd c.file_stats path ins dels

/-- The numstat invariant: per-file sums match the running totals. -/
def commitSumsOk (c : Commit) : Prop := insSum c = c.insertions ∧ delSum c = c.deletions

theorem numstatStep_sumsOk (c : Commit) (line : List Char) (h : commitSumsOk c) :
    commitSumsOk (numstatStep c line) := by
  unfold numstatStep
  split
  case h_2 => exact h
  case h_1 insRaw delRaw pathRaw heq =>
    set path := String.mk pathRaw with hpath
    set ins := if pyIsDigit insRaw then digitsToNat insRaw else 0 with hins
    set dels := if pyIsDigit delRaw then digitsToNat delRaw else 0 with hdels
    have hfound : assocFind (registerPath c path).file_stats path ≠ none := by
      rw [registerPath_find c path]
      simp
    obtain ⟨hsf, hsd⟩ :=
      applyNumstat_sums (registerPath c path) path ins dels
        (!(pyIsDigit insRaw && pyIsDigit delRaw)) hfound
    obtain ⟨htf, htd, _, _⟩ :=
      applyNumstat_totals (registerPath c path) path ins dels
        (!(pyIsDigit insRaw && pyIsDigit delRaw))
    obtain ⟨hrs, hrd⟩ := registerPath_sums c path
    obtain ⟨hri, hrdel, _⟩ := registerPath_totals c path
    constructor
    · rw [hsf, htf, hrs, hri, h.1]
    · rw [hsd, htd, hrd, hrdel, h.2]

/-- The commits held by a loader state. -/
def stateCommits (st : LoadState) : List Commit := st.finished ++ st.current.toList

theorem loadStep_sumsOk (repo : String) (parseTs : String → ℚ) (st : LoadState)
    (line : List Char) (h : ∀ c ∈ stateCommits st, commitSumsOk c) :
    ∀ c ∈ stateCommits (loadStep repo parseTs st line), commitSumsOk c := by
  intro c hc
  unfold loadStep at hc
  split at hc
  case isTrue hh =>
    simp only [stateCommits, List.append_assoc, List.mem_append] at hc
    rcases hc with hc | hc
    · exact h c (by simp [stateCommits, hc])
    · rcases hc with hc | hc
      · exact h c (by simp [stateCommits, hc])
      · simp only [Option.toList_some, List.mem_singleton] at hc
        subst hc
        exact ⟨rfl, rfl⟩
  case isFalse hh =>
    split at hc
    case h_1 => exact h c hc
    case h_2 c0 hcur =>
      split at hc
      case isTrue => exact h c hc
      case isFalse hb =>
        simp only [stateCommits, List.mem_append, Option.toList_some,
          List.mem_singleton] at hc
        rcases hc with hc | hc
        · exact h c (by simp [stateCommits, hc])
        · subst hc
          exact numstatStep_sumsOk c0 line
            (h c0 (by simp [stateCommits, hcur]))

theorem loadFold_sumsOk (repo : String) (parseTs : String → ℚ) (lines : List (List Char))
    (st : LoadState) (h : ∀ c ∈ stateCommits st, commitSumsOk c) :
    ∀ c ∈ stateCommits (lines.foldl (loadStep repo parseTs) st), commitSumsOk c := by
  induction lines generalizing st with
  | nil => exact h
  | cons l ls ih =>
    rw [List.foldl_cons]
    exact ih (loadStep repo parseTs st l) (loadStep_sumsOk repo parseTs st l h)

/-- Claim C1: every commit produced by `load_commits` whose binary flag is
clear has per-file insertion and deletion sums equal to its totals; and a
numstat line whose two numeric fields are both non-integer contributes zero
to the totals and to the per-file sums, registers the path in `files`, and
sets the binary flag. -/
theorem numstat_sums_invariant :
    (∀ (repo : String) (parseTs : String → ℚ) (output : String),
      ∀ c ∈ load_commits repo parseTs output,
        c.binary_numstat = false → insSum c = c.insertions ∧ delSum c = c.deletions) ∧
    (∀ (c : Commit) (line i d p : List Char),
      splitChar '\t' line = [i, d, p] →
      pyIsDigit i = false → pyIsDigit d = false →
      (assocFind c.file_stats (String.mk p) ≠ none → String.mk p ∈ c.files) →
        (numstatStep c line).insertions = c.insertions ∧
        (numstatStep c line).deletions = c.deletions ∧
        insSum (numstatStep c line) = insSum c ∧
        delSum (numstatStep c line) = delSum c ∧
        assocFind (numstatStep c line).file_stats (String.mk p) =
          some ((assocFind c.file_stats (String.mk p)).getD (0, 0)) ∧
        String.mk p ∈ (numstatStep c line).files ∧
        (numstatStep c line).binary_numstat = true) := by
  constructor
  · intro repo parseTs output c hc _
    have hinv := loadFold_sumsOk repo parseTs (pyLines output) ⟨[], none⟩
      (by intro x hx; simp [stateCommits] at hx)
    exact hinv c hc
  · intro c line i d p hsplit hdi hdd hw
    have hstep : numstatStep c line =
        applyNumstat (registerPath c (String.mk p)) (String.mk p) 0 0 true := by
      unfold numstatStep
      rw [hsplit]
      simp [hdi, hdd]
    rw [hstep]
    obtain ⟨htf, htd, htfiles, _⟩ :=
      applyNumstat_totals (registerPath c (String.mk p)) (String.mk p) 0 0 true
    have hfound : assocFind (registerPath c (String.mk p)).file_stats (String.mk p) ≠ none := by
      rw [registerPath_find c (String.mk p)]
      simp
    obtain ⟨hsf, hsd⟩ :=
      applyNumstat_sums (registerPath c (String.mk p)) (String.mk p) 0 0 true hfound
    obtain ⟨hri, hrd, _⟩ := registerPath_totals c (String.mk p)
    obtain ⟨hrs, hrds⟩ := registerPath_sums c (String.mk p)
    refine ⟨?_, ?_, ?_, ?_, ?_, ?_, ?_⟩
    · rw [htf, hri, Nat.add_zero]
    · rw [htd, hrd, Nat.add_zero]
    · rw [hsf, hrs, Nat.add_zero]
    · rw [hsd, hrds, Nat.add_zero]
    · rw [applyNumstat_find, registerPath_find]
      simp
    · rw [htfiles]
      exact registerPath_mem_files c (String.mk p) hw
    · exact applyNumstat_flag (registerPath c (String.mk p)) (String.mk p) 0 0

/-- Raw history output for the C1 witness: one commit, two numstat lines. -/
def sampleHistory : String :=
  "aaaaaaaaaaaaaaaaaaaaaaaaaaaaaaaaaaaaaaaa|t|fix|p\n3\t1\ta.py\n2\t0\tb.py"

/-- The commit `load_commits` produces from `sampleHistory`. -/
def sampleCommit : Commit :=
  ⟨"r", "aaaaaaaaaaaaaaaaaaaaaaaaaaaaaaaaaaaaaaaa", 0, "fix", ["a.py", "b.py"], 5, 1,
    [("a.py", 3, 1), ("b.py", 2, 0)], false, false⟩

/-- Witness for claim C1 at a concrete history text and a concrete binary
numstat line. -/
theorem numstat_sums_invariant_witness :
    sampleCommit ∈ load_commits "r" (fun _ => (0 : ℚ)) sampleHistory ∧
    sampleCommit.binary_numstat = false ∧
    insSum sampleCommit = sampleCommit.insertions ∧
    delSum sampleCommit = sampleCommit.deletions ∧
    (numstatStep sampleCommit "-\t-\tbin.png".toList).insertions = sampleCommit.insertions ∧
    (numstatStep sampleCommit "-\t-\tbin.png".toList).binary_numstat = true := by
  have h1 := numstat_sums_invariant.1 "r" (fun _ => (0 : ℚ)) sampleHistory sampleCommit
    (by decide) (by decide)
  have h2 := numstat_sums_invariant.2 sampleCommit "-\t-\tbin.png".toList
    "-".toList "-".toList "bin.png".toList (by decide) (by decide) (by decide) (by decide)
  exact ⟨by decide, by decide, h1.1, h1.2, h2.1, h2.2.2.2.2.2.2⟩

/-- Claim C4: for a non-merge commit whose diff has hunks, when the touch
table comes out empty (AST mapping produced nothing, or the symbol table is
empty and the header heuristic attributed nothing), the row set is exactly
one synthetic `unknown` row whose touch count is the number of hunks, and
the `symbol_unresolved` quality flag is emitted. -/
theorem unknown_fallback (commit : Commit) (file_path diff_text : String)
    (symbols : List (String × Nat × Nat))
    (hmerge : commit.merge_commit = false)
    (hhunks : parse_diff_hunks diff_text ≠ [])
    (htouched :
      (symbols ≠ [] ∧ map_hunks_to_symbols (parse_diff_hunks diff_text) symbols = []) ∨
      (symbols = [] ∧ symbols_from_hunk_headers (parse_diff_hunks diff_text) = [])) :
    "symbol_unresolved" ∈ (symbolRowsForCommit commit file_path diff_text symbols).2 ∧
    ∃ r, (symbolRowsForCommit commit file_path diff_text symbols).1 = [r] ∧
      r.symbol_id = "unknown" ∧ r.touches = (parse_diff_hunks diff_text).length := by
  have hne : (parse_diff_hunks diff_text).isEmpty = false := by
    cases h : parse_diff_hunks diff_text
    · exact absurd h hhunks
    · rfl
  rcases htouched with ⟨hs, hmap⟩ | ⟨hs, hhdr⟩
  · have hsE : symbols.isEmpty = false := by
      cases symbols
      · exact absurd rfl hs
      · rfl
    unfold symbolRowsForCommit
    rw [hmerge]
    simp only [Bool.false_eq_true, if_false, hne, hsE, hmap, Bool.not_false, if_true,
      List.isEmpty_nil, List.map_cons, List.map_nil]
    exact ⟨by simp, ⟨_, rfl, rfl, rfl⟩⟩
  · subst hs
    unfold symbolRowsForCommit
    rw [hmerge]
    simp only [Bool.false_eq_true, if_false, hne, hhdr, List.isEmpty_nil, Bool.not_true,
      if_false, List.map_cons, List.map_nil]
    exact ⟨by simp, ⟨_, rfl, rfl, rfl⟩⟩

/-- Commit for the C4 witness (non-merge). -/
def c4Commit : Commit := ⟨"r", "s", 0, "m", ["a.py"], 2, 1, [("a.py", 2, 1)], false, false⟩

/-- Diff text for the C4 witness: one hunk with an empty context header, so
the header heuristic attributes nothing. -/
def c4Diff : String := "@@ -1,2 +1,3 @@\n-a\n+b\n+c"

/-- Witness for claim C4: empty symbol table, header heuristic yields
nothing, so the single `unknown` row absorbs the hunk count. -/
theorem unknown_fallback_witness :
    c4Commit.merge_commit = false ∧
    parse_diff_hunks c4Diff ≠ [] ∧
    symbols_from_hunk_headers (parse_diff_hunks c4Diff) = [] ∧
    ("symbol_unresolved" ∈ (symbolRowsForCommit c4Commit "a.py" c4Diff []).2 ∧
      ∃ r, (symbolRowsForCommit c4Commit "a.py" c4Diff []).1 = [r] ∧
        r.symbol_id = "unknown" ∧ r.touches = (parse_diff_hunks c4Diff).length) := by
  refine ⟨rfl, by decide, by decide, ?_⟩
  exact unknown_fallback c4Commit "a.py" c4Diff [] rfl (by decide) (Or.inr ⟨rfl, by decide⟩)

/-- Widening the window preserves a true retouch test. -/
theorem retouchedB_mono {w1 w2 : ℚ} (hw : w1 ≤ w2) (ts : List ℚ)
    (h : retouchedB w1 ts = true) : retouchedB w2 ts = true := by
  unfold retouchedB at h ⊢
  rcases List.any_eq_true.mp h with ⟨ab, hab, hle⟩
  exact List.any_eq_true.mpr ⟨ab, hab, by
    simp only [decide_eq_true_eq] at hle ⊢
    exact le_trans hle hw⟩

/-- Claim C6: for a fixed commit list, the global rework ratio is
non-decreasing in the retouch window size. -/
theorem rework_window_monotone (commits : List Commit) (d1 d2 : Nat) (h : d1 ≤ d2) :
    reworkRatioOf commits d1 ≤ reworkRatioOf commits d2 := by
  unfold reworkRatioOf
  by_cases ht : (fileKeys commits).length = 0
  · simp [ht]
  · rw [if_neg ht, if_neg ht]
    have hw : (86400 : ℚ) * (d1 : ℚ) ≤ (86400 : ℚ) * (d2 : ℚ) := by
      have : (d1 : ℚ) ≤ (d2 : ℚ) := by exact_mod_cast h
      nlinarith
    have hlen := length_filter_mono
      (fun f hf => retouchedB_mono hw (sortByLe ratLe (touchTimes commits f)) hf)
      (fileKeys commits)
    have hpos : (0 : ℚ) < ((fileKeys commits).length : ℚ) := by
      exact_mod_cast Nat.pos_of_ne_zero ht
    exact (div_le_div_iff_of_pos_right hpos).mpr (by exact_mod_cast hlen)

/-- Commits for the C6 witness: the same file touched twice an hour apart. -/
def c6Commits : List Commit :=
  [⟨"r", "s1", 0, "m", ["a.py"], 0, 0, [], false, false⟩,
   ⟨"r", "s2", 3600, "m", ["a.py"], 0, 0, [], false, false⟩]

/-- Witness for claim C6 at windows of 7 and 14 days. -/
theorem rework_window_monotone_witness :
    7 ≤ 14 ∧ reworkRatioOf c6Commits 7 ≤ reworkRatioOf c6Commits 14 :=
  ⟨by decide, rework_window_monotone c6Commits 7 14 (by decide)⟩

/-- Both components of a pair drawn from a list belong to the list. -/
theorem listPairs_mem (l : List String) (x y : String) (h : (x, y) ∈ listPairs l) :
    x ∈ l ∧ y ∈ l := by
  induction l with
  | nil => simp [listPairs] at h
  | cons a as ih =>
    simp only [listPairs, List.mem_append, List.mem_map] at h
    rcases h with ⟨b, hb, hxy⟩ | h
    · obtain ⟨hx, hy⟩ := Prod.mk.injEq .. ▸ hxy
      exact ⟨by simp [← hx], by simp [← hy, hb]⟩
    · obtain ⟨hx, hy⟩ := ih h
      exact ⟨List.mem_cons_of_mem a hx, List.mem_cons_of_mem a hy⟩

/-- Every commit counted as shared for a pair containing the target file is
also counted in the target's own commit-touch count. -/
theorem pairCount_le_commitCount (commits : List Commit) (cap : Nat) (target : String)
    (pr : String × String) (htgt : target = pr.1 ∨ target = pr.2) :
    pairCount commits cap pr ≤ commitCountForFile commits cap target := by
  apply length_filter_mono
  intro c hc
  unfold pairInCo at hc
  simp only [Bool.and_eq_true, decide_eq_true_eq] at hc
  obtain ⟨⟨_, hcap⟩, hmem⟩ := hc
  obtain ⟨h1, h2⟩ := listPairs_mem (sortedUnique c.files) pr.1 pr.2 (by simpa using hmem)
  have htin : target ∈ sortedUnique c.files := by
    rcases htgt with h | h
    · rw [h]; exact h1
    · rw [h]; exact h2
  have htfiles : target ∈ c.files :=
    List.mem_dedup.mp ((mem_sortByLe strLe target c.files.dedup).mp htin)
  have hlen : c.files.dedup.length ≤ cap := by
    rw [← length_sortByLe strLe c.files.dedup]
    exact hcap
  simp [hlen, htfiles]

/-- Claim C2: every row of `coupling_scores` satisfies
`shared_commits ≤ target_commit_touches`. -/
theorem coupling_shared_le_touches (commits : List Commit) (target_file : String)
    (min_shared_revs max_changeset_size : Nat) (row : CouplingRow)
    (hrow : row ∈ coupling_scores commits target_file min_shared_revs max_changeset_size) :
    row.shared_commits ≤ row.target_commit_touches := by
  unfold coupling_scores at hrow
  rw [mem_sortByLe] at hrow
  rcases List.mem_filterMap.mp hrow with ⟨pr, hpr, hf⟩
  by_cases h1 : pairCount commits max_changeset_size pr < min_shared_revs
  · rw [if_pos h1] at hf
    exact absurd hf (by simp)
  · rw [if_neg h1] at hf
    by_cases h2 : ¬(target_file = pr.1 ∨ target_file = pr.2)
    · rw [if_pos h2] at hf
      exact absurd hf (by simp)
    · rw [if_neg h2] at hf
      push_neg at h2
      obtain rfl := Option.some.inj hf
      have hle := pairCount_le_commitCount commits max_changeset_size target_file pr h2
      by_cases hn : commitCountForFile commits max_changeset_size target_file = 0
      · simp only [hn, if_pos rfl]
        omega
      · simp only [if_neg hn]
        exact hle

/-- Commits for the C2 witness: two commits touching the same two files. -/
def c2Commits : List Commit :=
  [⟨"r", "s1", 0, "m", ["a.py", "b.py"], 0, 0, [], false, false⟩,
   ⟨"r", "s2", 1, "m", ["a.py", "b.py"], 0, 0, [], false, false⟩]

/-- The first row `coupling_scores` produces for the C2 witness commits
(taken by position: the `coupling` field holds an unevaluated rational
division, which the kernel cannot normalize, but the integer fields
reduce). -/
def c2Row : CouplingRow := (coupling_scores c2Commits "a.py" 2 50).headD default

/-- Witness for claim C2 at a concrete commit list. -/
theorem coupling_shared_le_touches_witness :
    c2Row ∈ coupling_scores c2Commits "a.py" 2 50 ∧
    c2Row.shared_commits = 2 ∧ c2Row.target_commit_touches = 2 ∧
    c2Row.shared_commits ≤ c2Row.target_commit_touches := by
  have hmem : c2Row ∈ coupling_scores c2Commits "a.py" 2 50 :=
    List.mem_cons_self c2Row _
  exact ⟨hmem, by decide, by decide,
    coupling_shared_le_touches c2Commits "a.py" 2 50 c2Row hmem⟩

/-!
## Supporting lemmas for the lag claim
-/

theorem latestStep_comm (t : ℚ) :
    ∀ (a b : ℚ) (m : Option ℚ), latestStep t a (latestStep t b m) = latestStep t b (latestStep t a m) := by
  intro a b m
  unfold latestStep
  by_cases ha : a ≤ t <;> by_cases hb : b ≤ t <;>
    cases m <;> simp [ha, hb, max_comm, max_left_comm]

theorem latestTsLe_perm (t : ℚ) {l1 l2 : List ℚ} (h : List.Perm l1 l2) :
    latestTsLe t l1 = latestTsLe t l2 := by
  haveI : LeftCommutative (latestStep t) := ⟨latestStep_comm t⟩
  exact h.foldr_eq none

theorem latestTsLe_none (t : ℚ) (l : List ℚ) (h : ∀ x ∈ l, ¬x ≤ t) :
    latestTsLe t l = none := by
  induction l with
  | nil => rfl
  | cons x xs ih =>
    unfold latestTsLe at ih ⊢
    rw [List.foldr_cons, ih fun y hy => h y (List.mem_cons_of_mem x hy)]
    unfold latestStep
    rw [if_neg (h x (List.mem_cons_self x xs))]

theorem lastLe_mem (t : ℚ) (l : List Prompt) (p : Prompt) (h : lastLe t l = some p) :
    p ∈ l := by
  induction l generalizing p with
  | nil => simp [lastLe] at h
  | cons q qs ih =>
    unfold lastLe at h
    by_cases hq : t < q.ts
    · rw [if_pos hq] at h
      exact absurd h (by simp)
    · rw [if_neg hq] at h
      cases hr : lastLe t qs with
      | none =>
        rw [hr] at h
        simp only [Option.getD_none, Option.some.injEq] at h
        rw [← h]
        exact List.mem_cons_self q qs
      | some r =>
        rw [hr] at h
        simp only [Option.getD_some, Option.some.injEq] at h
        rw [← h]
        exact List.mem_cons_of_mem q (ih r hr)

theorem promptLe_trans (a b c : Prompt) (h1 : promptLe a b = true) (h2 : promptLe b c = true) :
    promptLe a c = true := by
  simp only [promptLe, decide_eq_true_eq] at h1 h2 ⊢
  exact le_trans h1 h2

theorem promptLe_total (a b : Prompt) : promptLe a b = true ∨ promptLe b a = true := by
  simp only [promptLe, decide_eq_true_eq]
  exact le_total a.ts b.ts

/-- On a list sorted by timestamp, the break-scan of the source picks the
prompt whose timestamp is the largest one `≤ t`. -/
theorem lastLe_map_ts (t : ℚ) :
    ∀ {l : List Prompt}, l.Pairwise (fun a b => promptLe a b = true) →
      (lastLe t l).map Prompt.ts = latestTsLe t (l.map Prompt.ts) := by
  intro l
  induction l with
  | nil => intro _; rfl
  | cons p ps ih =>
    intro hl
    rcases List.pairwise_cons.mp hl with ⟨hp, hps⟩
    unfold lastLe
    simp only [List.map_cons]
    unfold latestTsLe
    rw [List.foldr_cons]
    by_cases hle : t < p.ts
    · rw [if_pos hle]
      have hnone : latestTsLe t (ps.map Prompt.ts) = none := by
        apply latestTsLe_none
        intro x hx
        rcases List.mem_map.mp hx with ⟨q, hq, hxq⟩
        have hpq : p.ts ≤ q.ts := of_decide_eq_true (hp q hq)
        rw [← hxq]
        exact not_le_of_lt (lt_of_lt_of_le hle hpq)
      unfold latestTsLe at hnone
      rw [hnone]
      unfold latestStep
      rw [if_neg (not_le_of_lt hle)]
      rfl
    · rw [if_neg hle]
      have hple : p.ts ≤ t := not_lt.mp hle
      have hrec := ih hps
      unfold latestTsLe at hrec
      cases hq : lastLe t ps with
      | none =>
        rw [hq] at hrec
        rw [← hrec]
        unfold latestStep
        rw [if_pos hple]
        rfl
      | some r =>
        rw [hq] at hrec
        rw [← hrec]
        unfold latestStep
        rw [if_pos hple]
        have hpr : p.ts ≤ r.ts := of_decide_eq_true (hp r (lastLe_mem t ps r hq))
        show some r.ts = some (max p.ts r.ts)
        rw [max_eq_right hpr]

/-- Per-commit agreement of the source scan with the spec's
latest-preceding-event description. -/
theorem nearest_commit_eq (prompts : List Prompt) (c : Commit) :
    (match lastLe c.ts (repoPrompts prompts c.repo) with
      | none => none
      | some p =>
        let lag := (c.ts - p.ts) / 3600
        if 0 ≤ lag ∧ lag ≤ 12 then some lag else none) =
    nearestLagSpec prompts c := by
  have hsorted : (repoPrompts prompts c.repo).Pairwise (fun a b => promptLe a b = true) :=
    pairwise_sortByLe promptLe_trans promptLe_total _
  have hmap := lastLe_map_ts c.ts hsorted
  have hperm : List.Perm ((repoPrompts prompts c.repo).map Prompt.ts)
      ((prompts.filter (fun p => decide (p.repo = c.repo))).map Prompt.ts) :=
    (perm_sortByLe promptLe _).map Prompt.ts
  have heq : (lastLe c.ts (repoPrompts prompts c.repo)).map Prompt.ts =
      latestTsLe c.ts ((prompts.filter (fun p => decide (p.repo = c.repo))).map Prompt.ts) :=
    hmap.trans (latestTsLe_perm c.ts hperm)
  unfold nearestLagSpec
  cases hq : lastLe c.ts (repoPrompts prompts c.repo) with
  | none =>
    rw [hq] at heq
    rw [← heq]
    rfl
  | some p =>
    rw [hq] at heq
    rw [← heq]
    rfl

/-- Commit for the C3 example conjuncts (timestamp 2026-01-02T00:00Z taken
as second 0 of the timeline). -/
def c3Commit : Commit := ⟨"r", "s", 0, "m", ["a.py"], 0, 0, [], false, false⟩

/-- Event half an hour before the commit. -/
def c3PromptNear : Prompt := ⟨"r", -1800, "codex", "x"⟩

/-- Event thirteen hours before the commit. -/
def c3PromptFar : Prompt := ⟨"r", -46800, "codex", "x"⟩

/-- Claim C3: `nearest_prompt_lags_hours` pairs each commit with the latest
same-repository event at or before the commit, keeps the lag in hours iff
it lies in [0, 12] and yields no sample for commits without a preceding
event; a prior event 30 minutes back gives exactly 0.5 hours, and one 13
hours back gives no sample. -/
theorem lag_pairing_spec :
    (∀ (commits : List Commit) (prompts : List Prompt),
      nearest_prompt_lags_hours commits prompts =
        commits.filterMap (nearestLagSpec prompts)) ∧
    nearest_prompt_lags_hours [c3Commit] [c3PromptNear] = [1 / 2] ∧
    nearest_prompt_lags_hours [c3Commit] [c3PromptFar] = [] := by
  refine ⟨?_, ?_, ?_⟩
  · intro commits prompts
    unfold nearest_prompt_lags_hours
    congr 1
    funext c
    exact nearest_commit_eq prompts c
  · norm_num [nearest_prompt_lags_hours, repoPrompts, promptLe, lastLe, sortByLe, insLe,
      c3Commit, c3PromptNear, List.filterMap]
  · norm_num [nearest_prompt_lags_hours, repoPrompts, promptLe, lastLe, sortByLe, insLe,
      c3Commit, c3PromptFar, List.filterMap]
